import Mathlib

/-!
Verification of the availability-slot computation engine of `src/backend/tools.py`
(`find_available_time_slots`), shallowly embedded in Lean.

Modelling choices:
* Instants are integers counting minutes (UTC).  The local timezone is a fixed
  offset `tz` in minutes, so the local wall clock at UTC instant `t` reads
  `t + tz`; daylight-saving transitions are outside the scope of the claims.
* A calendar date is the integer day number `d`; local midnight of day `d`
  falls at UTC instant `d * 1440 - tz`.
* Busy intervals are pairs of instants, mirroring the `(start, end)` tuples the
  code builds from the free/busy query; slots are the same pairs (the code
  renders them as strings, which is display-only).
* Date strings are taken as already parsed (the `YYYY-MM-DD` parse failure
  branch is not modelled; all claims are about parsed dates).
-/

/-- A half-open time window `[s, e)`, instants in minutes UTC.  Mirrors the
`(start, end)` datetime tuples of `tools.py`. -/
structure TW where
  s : Int
  e : Int
deriving DecidableEq

/-- Half-open overlap, as in the spec's `overlaps(a, b)`. -/
def TW.overlaps (a b : TW) : Prop := a.s < b.e ∧ b.s < a.e

instance (a b : TW) : Decidable (TW.overlaps a b) :=
  inferInstanceAs (Decidable (_ ∧ _))

/-- A window is valid when its start does not exceed its end (the spec's
`TimeWindow` invariant `start ≤ end`). -/
def TW.valid (a : TW) : Prop := a.s ≤ a.e

instance (a : TW) : Decidable a.valid := inferInstanceAs (Decidable (_ ≤ _))

/-- Separation: `a` ends strictly before `b` starts. -/
def sepLT (a b : TW) : Prop := a.e < b.s

instance (a b : TW) : Decidable (sepLT a b) := inferInstanceAs (Decidable (_ < _))

/-- Lexicographic order on `(s, e)`: how Python's `sorted` orders the
`(start, end)` tuples at lines 415 and 446 of `tools.py`. -/
def lexLE (a b : TW) : Prop := a.s < b.s ∨ (a.s = b.s ∧ a.e ≤ b.e)

instance : DecidableRel lexLE := fun a b =>
  inferInstanceAs (Decidable (_ ∨ _))

instance : IsTotal TW lexLE :=
  ⟨fun a b => by
    rcases lt_trichotomy a.s b.s with h | h | h
    · exact Or.inl (Or.inl h)
    · rcases le_total a.e b.e with h' | h'
      · exact Or.inl (Or.inr ⟨h, h'⟩)
      · exact Or.inr (Or.inr ⟨h.symm, h'⟩)
    · exact Or.inr (Or.inl h)⟩

instance : IsTrans TW lexLE :=
  ⟨fun a b c hab hbc => by
    rcases hab with h1 | ⟨h1, h1'⟩ <;> rcases hbc with h2 | ⟨h2, h2'⟩
    · exact Or.inl (h1.trans h2)
    · exact Or.inl (h2 ▸ h1)
    · exact Or.inl (h1 ▸ h2)
    · exact Or.inr ⟨h1.trans h2, h1'.trans h2'⟩⟩

instance : IsAntisymm TW lexLE :=
  ⟨fun a b hab hba => by
    rcases hab with h1 | ⟨h1, h1'⟩ <;> rcases hba with h2 | ⟨h2, h2'⟩
    · exact absurd (h1.trans h2) (lt_irrefl _)
    · exact absurd (h2 ▸ h1) (lt_irrefl _)
    · exact absurd (h1 ▸ h2) (lt_irrefl _)
    · cases a; cases b; cases h1; cases le_antisymm h1' h2'; rfl⟩

instance {ε α : Type} [DecidableEq ε] [DecidableEq α] : DecidableEq (Except ε α) :=
  fun a b =>
    match a, b with
    | .error e1, .error e2 =>
        if h : e1 = e2 then isTrue (by rw [h]) else
          isFalse (by intro hc; cases hc; exact h rfl)
    | .error _, .ok _ => isFalse (by intro hc; cases hc)
    | .ok _, .error _ => isFalse (by intro hc; cases hc)
    | .ok a1, .ok a2 =>
        if h : a1 = a2 then isTrue (by rw [h]) else
          isFalse (by intro hc; cases hc; exact h rfl)

/-- `sorted(...)` on the busy tuples: stable sort in the lexicographic tuple
order (stability is irrelevant here because the order is total and
antisymmetric). -/
def sortTW (l : List TW) : List TW := l.insertionSort lexLE

/-- The merge scan of lines 445-450: the accumulator's last interval is `cur`;
a new interval whose start exceeds `cur`'s end is appended, otherwise it
extends `cur`'s end to the max of the two ends. -/
def mergeInto (cur : TW) : List TW → List TW
  | [] => [cur]
  | b :: rest =>
      if cur.e < b.s then cur :: mergeInto b rest
      else mergeInto ⟨cur.s, max cur.e b.e⟩ rest

/-- `merged_busy_times` built from an (already sorted) list. -/
def mergeBusy : List TW → List TW
  | [] => []
  | b :: rest => mergeInto b rest

/-- The full merge step of lines 446-450: sort the day's busy tuples, then the
linear merge scan. -/
def mergeOp (l : List TW) : List TW := mergeBusy (sortTW l)

/-- The inner `while slot_start_utc + duration <= free_end_utc` emission loop
(lines 456-465 and 470-478), with an explicit fuel argument.  The loop
advances `slotStart` by `d` each iteration and validation guarantees
`1 ≤ d`, so `(fin - slotStart).toNat + 1` units of fuel are never
exhausted before the loop condition fails. -/
def emitSlotsAux (d : Int) : Nat → Int → Int → List TW
  | 0, _, _ => []
  | n + 1, slotStart, fin =>
      if slotStart + d ≤ fin then
        ⟨slotStart, slotStart + d⟩ :: emitSlotsAux d n (slotStart + d) fin
      else []

/-- Back-to-back slot emission in the free range `[slotStart, fin)`. -/
def emitSlots (d slotStart fin : Int) : List TW :=
  emitSlotsAux d ((fin - slotStart).toNat + 1) slotStart fin

/-- The per-day gap walk of lines 452-478: for each merged busy interval, emit
slots in the gap up to `min busy.s workEnd` (guarded by
`current_time_utc < free_end_utc`), then advance the cursor to
`max cursor busy.e`; finally emit slots in the tail gap up to `workEnd`
(guarded by `current_time_utc < work_end_utc`). -/
def daySlotsLoop (dur workEnd : Int) : Int → List TW → List TW
  | cur, [] => if cur < workEnd then emitSlots dur cur workEnd else []
  | cur, b :: rest =>
      (if cur < min b.s workEnd then emitSlots dur cur (min b.s workEnd) else []) ++
        daySlotsLoop dur workEnd (max cur b.e) rest

/-- UTC instant of local wall clock `startHour:00` on date `d`
(`work_start_utc`, lines 425-427). -/
def workStartUTC (tz startHour d : Int) : Int := d * 1440 + startHour * 60 - tz

/-- UTC instant of local wall clock `endHour:00` on date `d`
(`work_end_utc`, lines 426-428). -/
def workEndUTC (tz endHour d : Int) : Int := d * 1440 + endHour * 60 - tz

/-- `day_busy_times_utc` (lines 440-443): the busy tuples that half-open
overlap the day's nominal working window `[ws, we)`. -/
def dayBusyFilter (busy : List TW) (ws we : Int) : List TW :=
  busy.filter fun b => decide (b.s < we) && decide (b.e > ws)

/-- The parsed form of `FindAvailabilityInput`: dates already parsed to day
numbers, `endDate` optional as in the tool schema. -/
structure Request where
  startDate : Int
  endDate : Option Int
  startHour : Int
  endHour : Int
  durationMinutes : Int
deriving DecidableEq

/-- `now_utc.astimezone(local_tz).date()`: the local calendar date of `now`. -/
def todayOf (tz now : Int) : Int := (now + tz).fdiv 1440

/-- `parsed_end_date` (line 381): defaults to the parsed start date when
`end_date` is omitted. -/
def effEnd (req : Request) : Int := req.endDate.getD req.startDate

/-- `parsed_start_date` after the no-lookback advance of lines 386-387. -/
def effStart (tz now : Int) (req : Request) : Int :=
  if req.startDate < todayOf tz now then todayOf tz now else req.startDate

/-- One day of the search loop (lines 422-478): clip the working window
against `now`, skip the day when nothing of it remains, otherwise filter
the (globally sorted) busy list to the day, merge, and walk the gaps. -/
def daySlotsFor (tz now : Int) (req : Request) (busySorted : List TW) (d : Int) :
    Option (List TW) :=
  if max now (workStartUTC tz req.startHour d) ≥ workEndUTC tz req.endHour d then none
  else some (daySlotsLoop req.durationMinutes (workEndUTC tz req.endHour d)
    (max now (workStartUTC tz req.startHour d))
    (mergeOp (dayBusyFilter busySorted (workStartUTC tz req.startHour d)
      (workEndUTC tz req.endHour d))))

/-- Lines 480-485: a day contributes an entry only when its slot list is
non-empty (`if day_slots:`); a skipped day contributes nothing. -/
def dayEntry (tz now : Int) (req : Request) (bs : List TW) (d : Int) :
    List (Int × List TW) :=
  match daySlotsFor tz now req bs d with
  | none => []
  | some slots => if slots.isEmpty then [] else [(d, slots)]

/-- The `while current_date <= parsed_end_date` loop, with fuel equal to the
exact number of days in the (validated non-empty) range. -/
def buildReportAux (tz now : Int) (req : Request) (bs : List TW) :
    Nat → Int → List (Int × List TW)
  | 0, _ => []
  | n + 1, d => dayEntry tz now req bs d ++ buildReportAux tz now req bs n (d + 1)

/-- The structured validation failures of lines 389-398.  The date parse
failure (line 383) is not modelled: inputs are already parsed. -/
inductive FindError
  | invalidRange
  | invalidHours
  | invalidHourOrder
  | invalidDuration
deriving DecidableEq

/-- `find_available_time_slots` (lines 361-503) as structured data: the
validation chain of lines 386-398 in source order (no-lookback advance,
range check, hour bounds, hour order, duration), then the per-day loop.
The returned report lists, per day with at least one slot, the day's slots
in UTC; the "No available slots" message corresponds to `.ok []`. -/
def find_available_time_slots (tz now : Int) (req : Request) (busy : List TW) :
    Except FindError (List (Int × List TW)) :=
  if effStart tz now req > effEnd req then .error .invalidRange
  else if ¬ (0 ≤ req.startHour ∧ req.startHour ≤ 23 ∧
      0 ≤ req.endHour ∧ req.endHour ≤ 23) then .error .invalidHours
  else if req.startHour ≥ req.endHour then .error .invalidHourOrder
  else if req.durationMinutes ≤ 0 ∨ 1440 < req.durationMinutes then .error .invalidDuration
  else .ok (buildReportAux tz now req (sortTW busy)
    (effEnd req + 1 - effStart tz now req).toNat (effStart tz now req))

/-- Sanity check (spec Scenario A): working hours 09:00-17:00, duration 30,
no busy intervals, one day, gives the sixteen contiguous slots. -/
theorem scenario_A_sixteen_slots :
    find_available_time_slots 0 0 ⟨0, some 0, 9, 17, 30⟩ [] =
      .ok [(0, [⟨540, 570⟩, ⟨570, 600⟩, ⟨600, 630⟩, ⟨630, 660⟩, ⟨660, 690⟩,
        ⟨690, 720⟩, ⟨720, 750⟩, ⟨750, 780⟩, ⟨780, 810⟩, ⟨810, 840⟩, ⟨840, 870⟩,
        ⟨870, 900⟩, ⟨900, 930⟩, ⟨930, 960⟩, ⟨960, 990⟩, ⟨990, 1020⟩])] := by
  decide

/-- `lexLE` bounds the starts. -/
theorem lexLE_s_le {a b : TW} (h : lexLE a b) : a.s ≤ b.s := by
  rcases h with h | ⟨h, _⟩
  · exact le_of_lt h
  · exact le_of_eq h

/-- Inversion of a successful run: all validations passed and the report is
the day loop's output over the effective range. -/
theorem find_ok_inv {tz now : Int} {req : Request} {busy : List TW}
    {r : List (Int × List TW)}
    (h : find_available_time_slots tz now req busy = .ok r) :
    effStart tz now req ≤ effEnd req ∧ req.startHour < req.endHour ∧
    1 ≤ req.durationMinutes ∧ req.durationMinutes ≤ 1440 ∧
    r = buildReportAux tz now req (sortTW busy)
      (effEnd req + 1 - effStart tz now req).toNat (effStart tz now req) := by
  unfold find_available_time_slots at h
  split at h
  · cases h
  next h1 =>
  split at h
  · cases h
  next h2 =>
  split at h
  · cases h
  next h3 =>
  split at h
  · cases h
  next h4 =>
  injection h with h5
  refine ⟨not_lt.mp h1, not_le.mp h3, ?_, ?_, h5.symm⟩
  · omega
  · omega

/-- Every entry emitted for one day comes from a non-empty `daySlotsFor`. -/
theorem mem_dayEntry {tz now : Int} {req : Request} {bs : List TW}
    {d d' : Int} {slots : List TW}
    (h : (d', slots) ∈ dayEntry tz now req bs d) :
    d' = d ∧ daySlotsFor tz now req bs d = some slots ∧ slots ≠ [] := by
  unfold dayEntry at h
  cases hd : daySlotsFor tz now req bs d with
  | none => rw [hd] at h; cases h
  | some s0 =>
    rw [hd] at h
    dsimp only at h
    by_cases he : s0.isEmpty
    · rw [if_pos he] at h; cases h
    · rw [if_neg he] at h
      simp only [List.mem_singleton, Prod.mk.injEq] at h
      obtain ⟨h1, h2⟩ := h
      subst h1; subst h2
      refine ⟨rfl, rfl, ?_⟩
      intro hn
      exact he (by simp [hn])

/-- Report entries come from the per-day computation, are non-empty, and lie
inside the iterated range. -/
theorem mem_buildReportAux {tz now : Int} {req : Request} {bs : List TW} :
    ∀ {n : Nat} {d0 d : Int} {slots : List TW},
      (d, slots) ∈ buildReportAux tz now req bs n d0 →
      daySlotsFor tz now req bs d = some slots ∧ slots ≠ [] ∧
        d0 ≤ d ∧ d < d0 + n := by
  intro n
  induction n with
  | zero => intro d0 d slots h; cases h
  | succ n ih =>
    intro d0 d slots h
    unfold buildReportAux at h
    rcases List.mem_append.mp h with h | h
    · obtain ⟨h1, h2, h3⟩ := mem_dayEntry h
      subst h1
      exact ⟨h2, h3, le_refl _, by omega⟩
    · obtain ⟨h2, h3, h4, h5⟩ := ih h
      refine ⟨h2, h3, by omega, by omega⟩

/-- `buildReportAux` only reads the hour and duration fields of the request. -/
theorem buildReportAux_congr (tz now : Int) (req req' : Request) (bs : List TW)
    (h1 : req.startHour = req'.startHour) (h2 : req.endHour = req'.endHour)
    (h3 : req.durationMinutes = req'.durationMinutes) :
    ∀ (n : Nat) (d0 : Int),
      buildReportAux tz now req bs n d0 = buildReportAux tz now req' bs n d0 := by
  intro n
  induction n with
  | zero => intro d0; rfl
  | succ n ih =>
    intro d0
    unfold buildReportAux dayEntry daySlotsFor
    rw [h1, h2, h3, ih]


/-- C2 counterexample: with working hours 09:00-17:00 fully covered by one
busy interval, the day's clipped window is non-empty (`daySlotsFor` does not
skip the day) and the day's slot list is empty, yet the report contains no
entry for the day — the code appends a day only when `day_slots` is
non-empty (`if day_slots:` at line 480). -/
theorem fully_booked_day_absent_from_report :
    find_available_time_slots 0 0 ⟨0, some 0, 9, 17, 30⟩ [⟨540, 1020⟩] =
      .ok [] ∧
    daySlotsFor 0 0 ⟨0, some 0, 9, 17, 30⟩ (sortTW [⟨540, 1020⟩]) 0 = some [] := by
  decide

/-- C2 amended: a date appears in the report only when its computed slot list
is non-empty; fully-booked days are omitted (the all-days-empty case is the
aggregate "no availability" outcome, `.ok []`). -/
theorem report_entries_have_slots (tz now : Int) (req : Request)
    (busy : List TW) (r : List (Int × List TW))
    (h : find_available_time_slots tz now req busy = .ok r) :
    ∀ d slots, (d, slots) ∈ r → slots ≠ [] := by
  intro d slots hm
  obtain ⟨-, -, -, -, hr⟩ := find_ok_inv h
  subst hr
  exact (mem_buildReportAux hm).2.1

theorem report_entries_have_slots_witness :
    ([⟨540, 585⟩] : List TW) ≠ [] :=
  report_entries_have_slots 0 0 ⟨0, some 0, 9, 10, 45⟩ []
    [(0, [⟨540, 585⟩])] (by decide) 0 [⟨540, 585⟩] (by decide)

/-- C3 counterexample: today is day 10; the request asks for days 1 to 5, so
the requested start (1) is ≤ the requested end (5), yet the run returns
`InvalidRange` — the range check compares the end against the start already
advanced to today (lines 386-390). -/
theorem invalidRange_despite_ordered_request :
    find_available_time_slots 0 14400 ⟨1, some 5, 9, 17, 30⟩ [] =
      .error .invalidRange ∧ (1 : Int) ≤ 5 := by
  decide

/-- C3 amended: `InvalidRange` is signalled exactly when the no-lookback
advanced start date `max(requested start, today)` exceeds the effective end
date; the check is still the first validation, before any per-date
computation, and no report accompanies the error. -/
theorem invalidRange_iff_advanced_start_after_end (tz now : Int)
    (req : Request) (busy : List TW) :
    find_available_time_slots tz now req busy = .error .invalidRange ↔
      effEnd req < effStart tz now req := by
  unfold find_available_time_slots
  split
  next h => simpa using h
  next h =>
    constructor
    · intro hc
      split at hc
      · simp at hc
      · split at hc
        · simp at hc
        · split at hc
          · simp at hc
          · cases hc
    · intro hc
      exact absurd hc h

/-- C4 counterexample: today is day 1 and `end_date` is omitted.  The request
starting on (past) day 0 defaults its end to day 0 before the no-lookback
advance and is then rejected with `InvalidRange`, whereas the same request
with the start replaced by today searches today — the two results differ. -/
theorem past_start_not_same_as_today_start :
    find_available_time_slots 0 1440 ⟨0, none, 9, 17, 30⟩ [] ≠
      find_available_time_slots 0 1440 ⟨1, none, 9, 17, 30⟩ [] ∧
    (0 : Int) < todayOf 0 1440 := by
  decide

/-- C4 amended: when the request carries an explicit end date, a start date
earlier than today yields exactly the result of the same request with the
start date replaced by today.  (With `end_date` omitted the end defaults to
the original past start first, and the advanced request is rejected with
`InvalidRange` instead.) -/
theorem past_start_advanced_to_today (tz now : Int) (req : Request)
    (busy : List TW) (ed : Int) (he : req.endDate = some ed)
    (h : req.startDate < todayOf tz now) :
    find_available_time_slots tz now req busy =
      find_available_time_slots tz now
        ⟨todayOf tz now, req.endDate, req.startHour, req.endHour,
          req.durationMinutes⟩ busy := by
  have ht : effStart tz now req = todayOf tz now := if_pos h
  have ht' : effStart tz now
      ⟨todayOf tz now, req.endDate, req.startHour, req.endHour,
        req.durationMinutes⟩ = todayOf tz now := by
    unfold effStart
    exact if_neg (lt_irrefl _)
  have he' : effEnd req = effEnd
      ⟨todayOf tz now, req.endDate, req.startHour, req.endHour,
        req.durationMinutes⟩ := by
    unfold effEnd
    rw [he]
    rfl
  have hb := buildReportAux_congr tz now req
    ⟨todayOf tz now, req.endDate, req.startHour, req.endHour,
      req.durationMinutes⟩ (sortTW busy) rfl rfl rfl
  unfold find_available_time_slots
  rw [ht, ht', he', hb]

theorem past_start_advanced_to_today_witness :
    find_available_time_slots 0 1440 ⟨0, some 1, 9, 10, 45⟩ [] =
      find_available_time_slots 0 1440 ⟨1, some 1, 9, 10, 45⟩ [] :=
  past_start_advanced_to_today 0 1440 ⟨0, some 1, 9, 10, 45⟩ [] 1 rfl
    (by decide)

/-- C5 counterexample: a zero-length busy interval is not discarded and does
change the result — with working hours 09:00-17:00 and duration 30, a
zero-length interval at 09:15 shifts every slot, so the run differs from the
run with the interval removed. -/
theorem zero_length_interval_changes_result :
    find_available_time_slots 0 0 ⟨0, some 0, 9, 17, 30⟩ [⟨555, 555⟩] ≠
      find_available_time_slots 0 0 ⟨0, some 0, 9, 17, 30⟩ [] := by
  decide

/-- C5 amended: intervals with `start ≥ end` are never discarded; a
zero-length interval strictly inside the working window passes the per-day
relevance filter and acts as a cut point that advances the emission cursor:
with working hours 09:00-17:00, duration 30 and a zero-length busy interval
at 09:15 the slots run 09:15, 09:45, ... instead of 09:00, 09:30, .... -/
theorem zero_length_interval_shifts_slots :
    find_available_time_slots 0 0 ⟨0, some 0, 9, 17, 30⟩ [⟨555, 555⟩] =
      .ok [(0, [⟨555, 585⟩, ⟨585, 615⟩, ⟨615, 645⟩, ⟨645, 675⟩, ⟨675, 705⟩,
        ⟨705, 735⟩, ⟨735, 765⟩, ⟨765, 795⟩, ⟨795, 825⟩, ⟨825, 855⟩,
        ⟨855, 885⟩, ⟨885, 915⟩, ⟨915, 945⟩, ⟨945, 975⟩, ⟨975, 1005⟩])] ∧
    find_available_time_slots 0 0 ⟨0, some 0, 9, 17, 30⟩ [] =
      .ok [(0, [⟨540, 570⟩, ⟨570, 600⟩, ⟨600, 630⟩, ⟨630, 660⟩, ⟨660, 690⟩,
        ⟨690, 720⟩, ⟨720, 750⟩, ⟨750, 780⟩, ⟨780, 810⟩, ⟨810, 840⟩,
        ⟨840, 870⟩, ⟨870, 900⟩, ⟨900, 930⟩, ⟨930, 960⟩, ⟨960, 990⟩,
        ⟨990, 1020⟩])] ∧
    (⟨555, 555⟩ : TW) ∈ dayBusyFilter (sortTW [⟨555, 555⟩])
      (workStartUTC 0 9 0) (workEndUTC 0 17 0) := by
  decide

/-- C9: when `end_date` is omitted, the run equals the run with the end date
set to the start date, and a successful report covers at most that single
day. -/
theorem omitted_end_searches_single_day (tz now : Int) (req : Request)
    (busy : List TW) (hend : req.endDate = none) :
    find_available_time_slots tz now req busy =
      find_available_time_slots tz now
        ⟨req.startDate, some req.startDate, req.startHour, req.endHour,
          req.durationMinutes⟩ busy ∧
    ∀ r, find_available_time_slots tz now req busy = .ok r →
      r.length ≤ 1 ∧ ∀ p ∈ r, p.1 = req.startDate := by
  constructor
  · have ht : effStart tz now req = effStart tz now
        ⟨req.startDate, some req.startDate, req.startHour, req.endHour,
          req.durationMinutes⟩ := by
      unfold effStart; rfl
    have he' : effEnd req = effEnd
        ⟨req.startDate, some req.startDate, req.startHour, req.endHour,
          req.durationMinutes⟩ := by
      unfold effEnd
      rw [hend]
      rfl
    have hb := buildReportAux_congr tz now req
      ⟨req.startDate, some req.startDate, req.startHour, req.endHour,
        req.durationMinutes⟩ (sortTW busy) rfl rfl rfl
    unfold find_available_time_slots
    rw [ht, he', hb]
  · intro r h
    obtain ⟨h1, -, -, -, hr⟩ := find_ok_inv h
    have hee : effEnd req = req.startDate := by
      unfold effEnd; rw [hend]; rfl
    have hes : effStart tz now req = req.startDate := by
      unfold effStart at h1 ⊢
      rw [hee] at h1
      split at h1
      · omega
      · split <;> omega
    rw [hee, hes] at hr
    have hfuel : (req.startDate + 1 - req.startDate).toNat = 1 := by omega
    rw [hfuel] at hr
    subst hr
    constructor
    · unfold buildReportAux buildReportAux dayEntry
      cases daySlotsFor tz now req (sortTW busy) req.startDate with
      | none => simp
      | some s0 =>
        dsimp only
        split <;> simp
    · intro p hp
      have hp' : (p.1, p.2) ∈ buildReportAux tz now req (sortTW busy) 1
          req.startDate := by simpa using hp
      have := mem_buildReportAux hp'
      omega

theorem omitted_end_searches_single_day_witness :
    find_available_time_slots 0 0 ⟨0, none, 9, 10, 45⟩ [] =
      find_available_time_slots 0 0 ⟨0, some 0, 9, 10, 45⟩ [] ∧
    ([((0 : Int), [(⟨540, 585⟩ : TW)])]).length ≤ 1 ∧
    ∀ p ∈ [((0 : Int), [(⟨540, 585⟩ : TW)])], p.1 = (0 : Int) :=
  ⟨(omitted_end_searches_single_day 0 0 ⟨0, none, 9, 10, 45⟩ [] rfl).1,
   (omitted_end_searches_single_day 0 0 ⟨0, none, 9, 10, 45⟩ [] rfl).2
     [((0 : Int), [(⟨540, 585⟩ : TW)])] (by decide)⟩

/-- Every slot the fueled emission loop produces starts at or after the
cursor, has length exactly `d`, and ends within the free range. -/
theorem emitSlotsAux_mem {d : Int} (hd : 0 ≤ d) :
    ∀ (n : Nat) (st fin : Int), ∀ tw ∈ emitSlotsAux d n st fin,
      st ≤ tw.s ∧ tw.e = tw.s + d ∧ tw.e ≤ fin := by
  intro n
  induction n with
  | zero => intro st fin tw h; cases h
  | succ n ih =>
    intro st fin tw h
    unfold emitSlotsAux at h
    split at h
    next hfit =>
      rcases List.mem_cons.mp h with h | h
      · subst h; exact ⟨le_refl _, rfl, hfit⟩
      · obtain ⟨h1, h2, h3⟩ := ih (st + d) fin tw h
        exact ⟨by omega, h2, h3⟩
    next => cases h

theorem emitSlots_mem {d : Int} (hd : 0 ≤ d) (st fin : Int) :
    ∀ tw ∈ emitSlots d st fin, st ≤ tw.s ∧ tw.e = tw.s + d ∧ tw.e ≤ fin :=
  emitSlotsAux_mem hd _ st fin

/-- Slots emitted back-to-back are ordered: each ends no later than the next
starts. -/
theorem emitSlotsAux_pairwise {d : Int} (hd : 0 ≤ d) :
    ∀ (n : Nat) (st fin : Int),
      List.Pairwise (fun a b => a.e ≤ b.s) (emitSlotsAux d n st fin) := by
  intro n
  induction n with
  | zero => intro st fin; unfold emitSlotsAux; exact List.Pairwise.nil
  | succ n ih =>
    intro st fin
    unfold emitSlotsAux
    split
    · refine List.Pairwise.cons ?_ (ih (st + d) fin)
      intro tw htw
      exact (emitSlotsAux_mem hd n (st + d) fin tw htw).1
    · exact List.Pairwise.nil

theorem emitSlots_pairwise {d : Int} (hd : 0 ≤ d) (st fin : Int) :
    List.Pairwise (fun a b => a.e ≤ b.s) (emitSlots d st fin) :=
  emitSlotsAux_pairwise hd _ st fin

/-- Every slot of the gap walk starts at or after the cursor, has length
exactly `dur`, and ends by the working-window end. -/
theorem daySlotsLoop_mem {dur : Int} (hd : 0 ≤ dur) (we : Int) :
    ∀ (m : List TW) (c : Int), ∀ tw ∈ daySlotsLoop dur we c m,
      c ≤ tw.s ∧ tw.e = tw.s + dur ∧ tw.e ≤ we := by
  intro m
  induction m with
  | nil =>
    intro c tw h
    unfold daySlotsLoop at h
    split at h
    · exact emitSlots_mem hd c we tw h
    · cases h
  | cons b rest ih =>
    intro c tw h
    unfold daySlotsLoop at h
    rcases List.mem_append.mp h with h | h
    · split at h
      · obtain ⟨h1, h2, h3⟩ := emitSlots_mem hd c (min b.s we) tw h
        exact ⟨h1, h2, h3.trans (min_le_right _ _)⟩
      · cases h
    · obtain ⟨h1, h2, h3⟩ := ih (max c b.e) tw h
      exact ⟨le_trans (le_max_left _ _) h1, h2, h3⟩

/-- In a separated chain of valid windows, the head ends before every later
window starts. -/
theorem chain_sep_all {b : TW} {rest : List TW}
    (hc : List.Chain' sepLT (b :: rest)) (hv : ∀ x ∈ rest, x.valid) :
    ∀ x ∈ rest, b.e < x.s := by
  induction rest generalizing b with
  | nil => intro x hx; cases hx
  | cons b' rest' ih =>
    intro x hx
    have h1 : sepLT b b' := (List.chain'_cons.mp hc).1
    rcases List.mem_cons.mp hx with hx | hx
    · subst hx; exact h1
    · have hb' : b'.s ≤ b'.e := hv b' (List.mem_cons_self _ _)
      have h2 := ih (List.chain'_cons.mp hc).2
        (fun y hy => hv y (List.mem_cons_of_mem _ hy)) x hx
      exact lt_trans (lt_of_lt_of_le h1 hb') h2

/-- No slot of the gap walk overlaps any interval of the (valid, separated)
merged busy list. -/
theorem daySlotsLoop_avoid {dur : Int} (hd : 0 ≤ dur) (we : Int) :
    ∀ (m : List TW) (c : Int), (∀ x ∈ m, x.valid) → List.Chain' sepLT m →
      ∀ tw ∈ daySlotsLoop dur we c m, ∀ b ∈ m, ¬ TW.overlaps tw b := by
  intro m
  induction m with
  | nil => intro c _ _ tw _ b hb; cases hb
  | cons b0 rest ih =>
    intro c hv hc tw h b hb
    unfold daySlotsLoop at h
    rcases List.mem_append.mp h with h | h
    · have htwe : tw.e ≤ b0.s := by
        split at h
        · exact le_trans (emitSlots_mem hd c (min b0.s we) tw h).2.2
            (min_le_left _ _)
        · cases h
      rcases List.mem_cons.mp hb with hb | hb
      · subst hb
        intro ho
        exact absurd ho.2 (not_lt.mpr htwe)
      · have h1 : b0.e < b.s :=
          chain_sep_all hc (fun y hy => hv y (List.mem_cons_of_mem _ hy)) b hb
        have h2 : b0.s ≤ b0.e := hv b0 (List.mem_cons_self _ _)
        intro ho
        have := ho.2
        omega
    · rcases List.mem_cons.mp hb with hb | hb
      · subst hb
        have h1 : max c b.e ≤ tw.s :=
          (daySlotsLoop_mem hd we rest (max c b.e) tw h).1
        intro ho
        have h2 : b.e ≤ tw.s := le_trans (le_max_right _ _) h1
        have := ho.1
        omega
      · exact ih (max c b0.e) (fun y hy => hv y (List.mem_cons_of_mem _ hy))
          hc.tail tw h b hb

/-- The slots of the gap walk over a valid busy list are mutually ordered:
each ends no later than the next starts. -/
theorem daySlotsLoop_pairwise {dur : Int} (hd : 0 ≤ dur) (we : Int) :
    ∀ (m : List TW) (c : Int), (∀ x ∈ m, x.valid) →
      List.Pairwise (fun a b => a.e ≤ b.s) (daySlotsLoop dur we c m) := by
  intro m
  induction m with
  | nil =>
    intro c _
    unfold daySlotsLoop
    split
    · exact emitSlots_pairwise hd c we
    · exact List.Pairwise.nil
  | cons b0 rest ih =>
    intro c hv
    unfold daySlotsLoop
    apply List.pairwise_append.mpr
    refine ⟨?_, ih (max c b0.e) (fun y hy => hv y (List.mem_cons_of_mem _ hy)), ?_⟩
    · split
      · exact emitSlots_pairwise hd c (min b0.s we)
      · exact List.Pairwise.nil
    · intro a ha b hb
      have ha' : a.e ≤ min b0.s we := by
        split at ha
        · exact (emitSlots_mem hd c (min b0.s we) a ha).2.2
        · cases ha
      have hb' : max c b0.e ≤ b.s := (daySlotsLoop_mem hd we rest _ b hb).1
      have h2 : b0.s ≤ b0.e := hv b0 (List.mem_cons_self _ _)
      have h3 : a.e ≤ b0.s := le_trans ha' (min_le_left _ _)
      have h4 : b0.e ≤ max c b0.e := le_max_right _ _
      omega

/-- Full specification of the merge scan step: starting from the current
accumulated interval `cur` and a start-sorted tail of valid intervals, the
scan yields valid intervals, strictly separated, covering every input, and
its first output starts at `cur.s` with an end at least `cur.e`. -/
theorem mergeInto_spec :
    ∀ (l : List TW) (cur : TW), cur.valid → (∀ x ∈ l, x.valid) →
      List.Sorted lexLE l → (∀ x ∈ l, cur.s ≤ x.s) →
      (∀ m ∈ mergeInto cur l, m.valid) ∧
      List.Chain' sepLT (mergeInto cur l) ∧
      (∀ x ∈ cur :: l, ∃ m ∈ mergeInto cur l, m.s ≤ x.s ∧ x.e ≤ m.e) ∧
      (∃ e' t, mergeInto cur l = ⟨cur.s, e'⟩ :: t ∧ cur.e ≤ e') := by
  intro l
  induction l with
  | nil =>
    intro cur hcv _ _ _
    refine ⟨?_, ?_, ?_, cur.e, [], rfl, le_refl _⟩
    · intro m hm
      rcases List.mem_cons.mp hm with hm | hm
      · subst hm; exact hcv
      · cases hm
    · exact List.chain'_singleton _
    · intro x hx
      rcases List.mem_cons.mp hx with hx | hx
      · rw [hx]
        exact ⟨cur, List.mem_cons_self _ _, le_refl _, le_refl _⟩
      · cases hx
  | cons b rest ih =>
    intro cur hcv hv hs hstart
    have hv' : ∀ x ∈ rest, x.valid := fun x hx => hv x (List.mem_cons_of_mem _ hx)
    have hsr := List.sorted_cons.mp hs
    unfold mergeInto
    split
    next hlt =>
      have hstart' : ∀ x ∈ rest, b.s ≤ x.s := fun x hx => lexLE_s_le (hsr.1 x hx)
      obtain ⟨iv, ic, icov, e', t, heq, he'⟩ :=
        ih b (hv b (List.mem_cons_self _ _)) hv' hsr.2 hstart'
      refine ⟨?_, ?_, ?_, cur.e, mergeInto b rest, rfl, le_refl _⟩
      · intro m hm
        rcases List.mem_cons.mp hm with hm | hm
        · subst hm; exact hcv
        · exact iv m hm
      · rw [heq]
        rw [heq] at ic
        exact List.Chain'.cons hlt ic
      · intro x hx
        rcases List.mem_cons.mp hx with hx | hx
        · rw [hx]
          exact ⟨cur, List.mem_cons_self _ _, le_refl _, le_refl _⟩
        · obtain ⟨m, hm, hm1, hm2⟩ := icov x hx
          exact ⟨m, List.mem_cons_of_mem _ hm, hm1, hm2⟩
    next hge =>
      have hbs : cur.s ≤ b.s := hstart b (List.mem_cons_self _ _)
      have hcv' : (⟨cur.s, max cur.e b.e⟩ : TW).valid :=
        le_trans hcv (le_max_left _ _)
      have hstart'' : ∀ x ∈ rest, (⟨cur.s, max cur.e b.e⟩ : TW).s ≤ x.s :=
        fun x hx => le_trans hbs (lexLE_s_le (hsr.1 x hx))
      obtain ⟨iv, ic, icov, e', t, heq, he'⟩ :=
        ih ⟨cur.s, max cur.e b.e⟩ hcv' hv' hsr.2 hstart''
      refine ⟨iv, ic, ?_, e', t, heq, le_trans (le_max_left _ _) he'⟩
      intro x hx
      rcases List.mem_cons.mp hx with hx | hx
      · rw [hx]
        obtain ⟨m, hm, hm1, hm2⟩ :=
          icov ⟨cur.s, max cur.e b.e⟩ (List.mem_cons_self _ _)
        exact ⟨m, hm, hm1, le_trans (le_max_left _ _) hm2⟩
      rcases List.mem_cons.mp hx with hx | hx
      · rw [hx]
        obtain ⟨m, hm, hm1, hm2⟩ :=
          icov ⟨cur.s, max cur.e b.e⟩ (List.mem_cons_self _ _)
        exact ⟨m, hm, le_trans hm1 hbs, le_trans (le_max_right _ _) hm2⟩
      · obtain ⟨m, hm, hm1, hm2⟩ := icov x (List.mem_cons_of_mem _ hx)
        exact ⟨m, hm, hm1, hm2⟩

/-- The merge of a start-sorted valid list is valid, strictly separated, and
covers every input interval. -/
theorem mergeBusy_spec (l : List TW) (hv : ∀ x ∈ l, x.valid)
    (hs : List.Sorted lexLE l) :
    (∀ m ∈ mergeBusy l, m.valid) ∧ List.Chain' sepLT (mergeBusy l) ∧
    (∀ x ∈ l, ∃ m ∈ mergeBusy l, m.s ≤ x.s ∧ x.e ≤ m.e) := by
  cases l with
  | nil => exact ⟨fun m hm => absurd hm (List.not_mem_nil m), List.chain'_nil,
      fun x hx => absurd hx (List.not_mem_nil x)⟩
  | cons b rest =>
    have hsr := List.sorted_cons.mp hs
    obtain ⟨a1, a2, a3, -⟩ := mergeInto_spec rest b (hv b (List.mem_cons_self _ _))
      (fun x hx => hv x (List.mem_cons_of_mem _ hx)) hsr.2
      (fun x hx => lexLE_s_le (hsr.1 x hx))
    exact ⟨a1, a2, a3⟩

/-- The full merge (sort, then scan) of any valid busy list is valid,
strictly separated, and covers every input interval. -/
theorem mergeOp_spec (l : List TW) (hv : ∀ x ∈ l, x.valid) :
    (∀ m ∈ mergeOp l, m.valid) ∧ List.Chain' sepLT (mergeOp l) ∧
    (∀ x ∈ l, ∃ m ∈ mergeOp l, m.s ≤ x.s ∧ x.e ≤ m.e) := by
  have hv' : ∀ x ∈ sortTW l, x.valid := fun x hx =>
    hv x ((List.mem_insertionSort lexLE).mp hx)
  have hs : List.Sorted lexLE (sortTW l) := List.sorted_insertionSort lexLE l
  obtain ⟨a1, a2, a3⟩ := mergeBusy_spec (sortTW l) hv' hs
  exact ⟨a1, a2, fun x hx => a3 x ((List.mem_insertionSort lexLE).mpr hx)⟩

/-- C1 counterexample: `now` = 09:45 inside working hours 09:00-17:00,
duration 30, no busy intervals.  The 09:00 and 09:30 slots are suppressed,
but the first emitted slot starts at 09:45 (585) — the clipped start itself —
not at the 10:00 (600) boundary the claim states: the code emits back-to-back
from `max(now, work_start)` with no rounding to slot boundaries. -/
theorem first_slot_at_now_not_boundary :
    find_available_time_slots 0 585 ⟨0, some 0, 9, 17, 30⟩ [] =
      .ok [(0, [⟨585, 615⟩, ⟨615, 645⟩, ⟨645, 675⟩, ⟨675, 705⟩, ⟨705, 735⟩,
        ⟨735, 765⟩, ⟨765, 795⟩, ⟨795, 825⟩, ⟨825, 855⟩, ⟨855, 885⟩,
        ⟨885, 915⟩, ⟨915, 945⟩, ⟨945, 975⟩, ⟨975, 1005⟩])] ∧
    (585 : Int) ≠ 600 := by
  decide

/-- C1 amended: slots lying before `now` are suppressed in the sense that
every emitted slot starts at or after `max(now, work_start)`; in particular
no emitted slot begins earlier than `now`.  But the first slot starts exactly
at the clipped start (at `now` itself when `now` lies inside working hours),
not at the next slot boundary at or after `now`. -/
theorem no_slot_before_now (tz now : Int) (req : Request) (busy : List TW)
    (r : List (Int × List TW))
    (h : find_available_time_slots tz now req busy = .ok r) :
    ∀ d slots, (d, slots) ∈ r → ∀ tw ∈ slots,
      max now (workStartUTC tz req.startHour d) ≤ tw.s := by
  intro d slots hm tw htw
  obtain ⟨-, -, hd1, -, hr⟩ := find_ok_inv h
  have hd0 : (0 : Int) ≤ req.durationMinutes := by omega
  subst hr
  obtain ⟨hday, -, -, -⟩ := mem_buildReportAux hm
  unfold daySlotsFor at hday
  split at hday
  · cases hday
  · injection hday with hslots
    subst hslots
    exact (daySlotsLoop_mem hd0 _ _ _ tw htw).1

theorem no_slot_before_now_witness :
    max (585 : Int) (workStartUTC 0 9 0) ≤ (⟨585, 615⟩ : TW).s :=
  no_slot_before_now 0 585 ⟨0, some 0, 9, 17, 30⟩ []
    [(0, [⟨585, 615⟩, ⟨615, 645⟩, ⟨645, 675⟩, ⟨675, 705⟩, ⟨705, 735⟩,
      ⟨735, 765⟩, ⟨765, 795⟩, ⟨795, 825⟩, ⟨825, 855⟩, ⟨855, 885⟩,
      ⟨885, 915⟩, ⟨915, 945⟩, ⟨945, 975⟩, ⟨975, 1005⟩])]
    (by decide) 0
    [⟨585, 615⟩, ⟨615, 645⟩, ⟨645, 675⟩, ⟨675, 705⟩, ⟨705, 735⟩,
      ⟨735, 765⟩, ⟨765, 795⟩, ⟨795, 825⟩, ⟨825, 855⟩, ⟨855, 885⟩,
      ⟨885, 915⟩, ⟨915, 945⟩, ⟨945, 975⟩, ⟨975, 1005⟩]
    (by decide) ⟨585, 615⟩ (by decide)

/-- C7: every emitted slot has length exactly `duration_minutes` and ends no
later than the day's working-window end. -/
theorem slot_duration_exact (tz now : Int) (req : Request) (busy : List TW)
    (r : List (Int × List TW))
    (h : find_available_time_slots tz now req busy = .ok r) :
    ∀ d slots, (d, slots) ∈ r → ∀ tw ∈ slots,
      tw.e - tw.s = req.durationMinutes ∧
      tw.e ≤ workEndUTC tz req.endHour d := by
  intro d slots hm tw htw
  obtain ⟨-, -, hd1, -, hr⟩ := find_ok_inv h
  have hd0 : (0 : Int) ≤ req.durationMinutes := by omega
  subst hr
  obtain ⟨hday, -, -, -⟩ := mem_buildReportAux hm
  unfold daySlotsFor at hday
  split at hday
  · cases hday
  · injection hday with hslots
    subst hslots
    obtain ⟨-, h2, h3⟩ := daySlotsLoop_mem hd0 _ _ _ tw htw
    exact ⟨by omega, h3⟩

theorem slot_duration_exact_witness :
    (⟨540, 585⟩ : TW).e - (⟨540, 585⟩ : TW).s = 45 ∧
    (⟨540, 585⟩ : TW).e ≤ workEndUTC 0 10 0 :=
  slot_duration_exact 0 0 ⟨0, some 0, 9, 10, 45⟩ [] [(0, [⟨540, 585⟩])]
    (by decide) 0 [⟨540, 585⟩] (by decide) ⟨540, 585⟩ (by decide)

/-- C6: on every reported day, the emitted slots are pairwise non-overlapping
(half-open semantics), and none overlaps any busy interval relevant to that
day's nominal working window.  The busy set is assumed to consist of valid
windows (`start ≤ end`), the `TimeWindow` invariant of the data model. -/
theorem slots_disjoint_and_avoid_busy (tz now : Int) (req : Request)
    (busy : List TW) (r : List (Int × List TW))
    (hv : ∀ b ∈ busy, b.valid)
    (h : find_available_time_slots tz now req busy = .ok r) :
    ∀ d slots, (d, slots) ∈ r →
      List.Pairwise (fun a b => ¬ TW.overlaps a b) slots ∧
      ∀ tw ∈ slots, ∀ b ∈ busy,
        b.s < workEndUTC tz req.endHour d →
        workStartUTC tz req.startHour d < b.e → ¬ TW.overlaps tw b := by
  intro d slots hm
  obtain ⟨-, -, hd1, -, hr⟩ := find_ok_inv h
  have hd0 : (0 : Int) ≤ req.durationMinutes := by omega
  subst hr
  obtain ⟨hday, -, -, -⟩ := mem_buildReportAux hm
  unfold daySlotsFor at hday
  split at hday
  · cases hday
  · injection hday with hslots
    subst hslots
    have hvs : ∀ x ∈ dayBusyFilter (sortTW busy) (workStartUTC tz req.startHour d)
        (workEndUTC tz req.endHour d), x.valid := by
      intro x hx
      exact hv x ((List.mem_insertionSort lexLE).mp (List.mem_of_mem_filter hx))
    obtain ⟨m1, m2, m3⟩ := mergeOp_spec _ hvs
    constructor
    · have hp := daySlotsLoop_pairwise hd0 (workEndUTC tz req.endHour d) _
        (max now (workStartUTC tz req.startHour d)) m1
      exact hp.imp fun hab ho => absurd ho.2 (not_lt.mpr hab)
    · intro tw htw b hb hb1 hb2
      have hbmem : b ∈ dayBusyFilter (sortTW busy)
          (workStartUTC tz req.startHour d) (workEndUTC tz req.endHour d) := by
        unfold dayBusyFilter
        refine List.mem_filter.mpr ⟨(List.mem_insertionSort lexLE).mpr hb, ?_⟩
        simp only [Bool.and_eq_true, decide_eq_true_eq]
        exact ⟨hb1, hb2⟩
      obtain ⟨m, hmm, hms, hme⟩ := m3 b hbmem
      have hav := daySlotsLoop_avoid hd0 (workEndUTC tz req.endHour d) _
        (max now (workStartUTC tz req.startHour d)) m1 m2 tw htw m hmm
      intro ho
      exact hav ⟨lt_of_lt_of_le ho.1 hme, lt_of_le_of_lt hms ho.2⟩

theorem slots_disjoint_and_avoid_busy_witness :
    List.Pairwise (fun a b => ¬ TW.overlaps a b)
      [(⟨540, 570⟩ : TW), ⟨570, 600⟩, ⟨660, 690⟩, ⟨690, 720⟩, ⟨720, 750⟩,
        ⟨750, 780⟩, ⟨780, 810⟩, ⟨810, 840⟩, ⟨840, 870⟩, ⟨870, 900⟩,
        ⟨900, 930⟩, ⟨930, 960⟩, ⟨960, 990⟩, ⟨990, 1020⟩] ∧
    ∀ tw ∈ [(⟨540, 570⟩ : TW), ⟨570, 600⟩, ⟨660, 690⟩, ⟨690, 720⟩,
        ⟨720, 750⟩, ⟨750, 780⟩, ⟨780, 810⟩, ⟨810, 840⟩, ⟨840, 870⟩,
        ⟨870, 900⟩, ⟨900, 930⟩, ⟨930, 960⟩, ⟨960, 990⟩, ⟨990, 1020⟩],
      ∀ b ∈ [(⟨600, 660⟩ : TW)],
        b.s < workEndUTC 0 17 0 → workStartUTC 0 9 0 < b.e →
          ¬ TW.overlaps tw b :=
  slots_disjoint_and_avoid_busy 0 0 ⟨0, some 0, 9, 17, 30⟩ [⟨600, 660⟩]
    [(0, [⟨540, 570⟩, ⟨570, 600⟩, ⟨660, 690⟩, ⟨690, 720⟩, ⟨720, 750⟩,
      ⟨750, 780⟩, ⟨780, 810⟩, ⟨810, 840⟩, ⟨840, 870⟩, ⟨870, 900⟩,
      ⟨900, 930⟩, ⟨930, 960⟩, ⟨960, 990⟩, ⟨990, 1020⟩])]
    (by decide) (by decide) 0
    [⟨540, 570⟩, ⟨570, 600⟩, ⟨660, 690⟩, ⟨690, 720⟩, ⟨720, 750⟩,
      ⟨750, 780⟩, ⟨780, 810⟩, ⟨810, 840⟩, ⟨840, 870⟩, ⟨870, 900⟩,
      ⟨900, 930⟩, ⟨930, 960⟩, ⟨960, 990⟩, ⟨990, 1020⟩]
    (by decide)

/-- Scanning a strictly separated list changes nothing. -/
theorem mergeInto_of_chain :
    ∀ (l : List TW) (a : TW), List.Chain' sepLT (a :: l) →
      mergeInto a l = a :: l := by
  intro l
  induction l with
  | nil => intro a _; rfl
  | cons b rest ih =>
    intro a hc
    have h1 : a.e < b.s := (List.chain'_cons.mp hc).1
    unfold mergeInto
    rw [if_pos h1, ih b (List.chain'_cons.mp hc).2]

/-- Merging a strictly separated list is the identity. -/
theorem mergeBusy_of_chain (l : List TW) (hc : List.Chain' sepLT l) :
    mergeBusy l = l := by
  cases l with
  | nil => rfl
  | cons a t => exact mergeInto_of_chain t a hc

/-- On valid windows a separation chain is pairwise. -/
theorem pairwise_sep_of_chain :
    ∀ (l : List TW), List.Chain' sepLT l → (∀ x ∈ l, x.valid) →
      List.Pairwise sepLT l := by
  intro l
  induction l with
  | nil => intro _ _; exact List.Pairwise.nil
  | cons a t ih =>
    intro hc hv
    refine List.Pairwise.cons ?_ (ih hc.tail fun x hx => hv x (List.mem_cons_of_mem _ hx))
    exact chain_sep_all hc fun x hx => hv x (List.mem_cons_of_mem _ hx)

/-- Pairwise separated valid windows are sorted in the tuple order. -/
theorem sorted_of_pairwise_sep (l : List TW) (hp : List.Pairwise sepLT l)
    (hv : ∀ x ∈ l, x.valid) : List.Sorted lexLE l := by
  refine hp.imp_of_mem ?_
  intro a b ha _ hab
  exact Or.inl (lt_of_le_of_lt (hv a ha) hab)

/-- C8: the busy-interval merge (sort + linear scan) is idempotent on every
valid busy set, and is the identity on a set that is already pairwise
strictly separated (sorted ascending, no overlapping or touching
intervals). -/
theorem merge_idempotent (l : List TW) (hv : ∀ b ∈ l, b.valid) :
    mergeOp (mergeOp l) = mergeOp l ∧
    (List.Pairwise sepLT l → mergeOp l = l) := by
  have part2 : ∀ (l' : List TW), (∀ b ∈ l', b.valid) →
      List.Pairwise sepLT l' → mergeOp l' = l' := by
    intro l' hv' hp
    have hs : List.Sorted lexLE l' := sorted_of_pairwise_sep l' hp hv'
    unfold mergeOp
    rw [show sortTW l' = l' from hs.insertionSort_eq]
    exact mergeBusy_of_chain l' hp.chain'
  constructor
  · obtain ⟨m1, m2, -⟩ := mergeOp_spec l hv
    exact part2 _ m1 (pairwise_sep_of_chain _ m2 m1)
  · exact part2 l hv

theorem merge_idempotent_witness :
    mergeOp (mergeOp [(⟨0, 10⟩ : TW), ⟨5, 20⟩]) = mergeOp [(⟨0, 10⟩ : TW), ⟨5, 20⟩] ∧
    mergeOp [(⟨0, 10⟩ : TW), ⟨20, 30⟩] = [(⟨0, 10⟩ : TW), ⟨20, 30⟩] :=
  ⟨(merge_idempotent [⟨0, 10⟩, ⟨5, 20⟩] (by decide)).1,
   (merge_idempotent [⟨0, 10⟩, ⟨20, 30⟩] (by decide)).2 (by decide)⟩

/-- C10: the per-day filter keeps exactly the busy intervals that half-open
overlap the day's nominal working window (`s < work_end` and `e > work_start`,
lines 440-443) — so a busy interval spanning several days is kept on every
day whose window it overlaps — and an interval not overlapping the window
(in particular one merely touching its boundary) leaves that day's whole
computation unchanged. -/
theorem day_filter_selects_overlapping (tz now : Int) (req : Request)
    (busy : List TW) (d : Int) (b : TW) :
    (b ∈ dayBusyFilter (sortTW busy) (workStartUTC tz req.startHour d)
        (workEndUTC tz req.endHour d) ↔
      b ∈ busy ∧ b.s < workEndUTC tz req.endHour d ∧
        workStartUTC tz req.startHour d < b.e) ∧
    (¬ (b.s < workEndUTC tz req.endHour d ∧
        workStartUTC tz req.startHour d < b.e) →
      daySlotsFor tz now req (sortTW (b :: busy)) d =
        daySlotsFor tz now req (sortTW busy) d) := by
  constructor
  · unfold dayBusyFilter sortTW
    simp only [List.mem_filter, Bool.and_eq_true, decide_eq_true_eq,
      List.mem_insertionSort, gt_iff_lt]
  · intro hno
    have hpb : (decide (b.s < workEndUTC tz req.endHour d) &&
        decide (b.e > workStartUTC tz req.startHour d)) = false := by
      by_cases h1 : b.s < workEndUTC tz req.endHour d
      · have h2 : ¬ workStartUTC tz req.startHour d < b.e :=
          fun h2 => hno ⟨h1, h2⟩
        simp [h2]
      · simp [h1]
    have hfe : dayBusyFilter (sortTW (b :: busy))
        (workStartUTC tz req.startHour d) (workEndUTC tz req.endHour d) =
        dayBusyFilter (sortTW busy)
        (workStartUTC tz req.startHour d) (workEndUTC tz req.endHour d) := by
      unfold dayBusyFilter sortTW
      have p1 := (List.perm_insertionSort lexLE (b :: busy)).filter
        (fun x => decide (x.s < workEndUTC tz req.endHour d) &&
          decide (x.e > workStartUTC tz req.startHour d))
      have p3 := (List.perm_insertionSort lexLE busy).filter
        (fun x => decide (x.s < workEndUTC tz req.endHour d) &&
          decide (x.e > workStartUTC tz req.startHour d))
      have p2 : List.filter
          (fun x => decide (x.s < workEndUTC tz req.endHour d) &&
            decide (x.e > workStartUTC tz req.startHour d)) (b :: busy) =
          List.filter
          (fun x => decide (x.s < workEndUTC tz req.endHour d) &&
            decide (x.e > workStartUTC tz req.startHour d)) busy := by
        rw [List.filter_cons]
        simp [hpb]
      have p4 := p1.trans (p2 ▸ p3.symm)
      exact List.eq_of_perm_of_sorted p4
        (List.Pairwise.sublist (List.filter_sublist _)
          (List.sorted_insertionSort lexLE (b :: busy)))
        (List.Pairwise.sublist (List.filter_sublist _)
          (List.sorted_insertionSort lexLE busy))
    unfold daySlotsFor
    rw [hfe]

theorem day_filter_selects_overlapping_witness :
    ((⟨480, 540⟩ : TW) ∈ dayBusyFilter (sortTW [(⟨480, 540⟩ : TW)])
        (workStartUTC 0 9 0) (workEndUTC 0 17 0) ↔
      (⟨480, 540⟩ : TW) ∈ [(⟨480, 540⟩ : TW)] ∧
        (480 : Int) < workEndUTC 0 17 0 ∧ workStartUTC 0 9 0 < 540) ∧
    daySlotsFor 0 0 ⟨0, some 0, 9, 17, 30⟩ (sortTW [⟨480, 540⟩, ⟨600, 660⟩]) 0 =
      daySlotsFor 0 0 ⟨0, some 0, 9, 17, 30⟩ (sortTW [⟨600, 660⟩]) 0 :=
  ⟨(day_filter_selects_overlapping 0 0 ⟨0, some 0, 9, 17, 30⟩ [⟨480, 540⟩] 0
      ⟨480, 540⟩).1,
   (day_filter_selects_overlapping 0 0 ⟨0, some 0, 9, 17, 30⟩ [⟨600, 660⟩] 0
      ⟨480, 540⟩).2 (by decide)⟩
